import Mathlib

/-!
Verification of the `indexer` TF-IDF search engine.

The development shallowly embeds the Rust sources:
strings are lists of `Char`, the hash maps keyed by `CaseInsensitiveString`
are association lists looked up through the case-insensitive equality of
`case_insensitive_string.rs`, `f64` arithmetic is modelled by exact `ℚ`/`ℝ`
arithmetic, and fallible operations return `Option`.
-/

namespace Indexer

/-! ### Character predicates (models of Rust `char` methods)

`rustToAsciiLowercase`, `rustToAsciiUppercase`, `isAsciiWhitespace`,
`isAsciiDigit` and `isAsciiAlphabetic` are exact models of the
corresponding Rust `char` methods.  Rust's `char::is_alphanumeric` is
Unicode-aware; `rustIsAlphanumeric` models its ASCII fragment exactly and
is used as the single shared symbol for "alphanumeric" on both the code
side and the spec side, so comparisons between the two are insensitive to
its extension beyond ASCII. -/

def rustToAsciiLowercase (c : Char) : Char :=
  if 'A' ≤ c ∧ c ≤ 'Z' then Char.ofNat (c.toNat + 32) else c

def rustToAsciiUppercase (c : Char) : Char :=
  if 'a' ≤ c ∧ c ≤ 'z' then Char.ofNat (c.toNat - 32) else c

def isAsciiWhitespace (c : Char) : Bool :=
  c == ' ' || c == '\t' || c == '\n' || c == Char.ofNat 12 || c == '\r'

def isAsciiDigit (c : Char) : Bool :=
  '0' ≤ c && c ≤ '9'

def isAsciiAlphabetic (c : Char) : Bool :=
  ('A' ≤ c && c ≤ 'Z') || ('a' ≤ c && c ≤ 'z')

def rustIsAlphanumeric (c : Char) : Bool :=
  isAsciiAlphabetic c || isAsciiDigit c

/-! ### Lexer (`src/tokenizer/lexer.rs`)

`skip_whitespaces` models `Lexer::skip_whitespaces`: it advances to the
first character that is neither ASCII whitespace nor a newline, and —
exactly as in the source — leaves the buffer unchanged when no such
character exists.

`chomp_while` models `Lexer::chomp_while`; the `.expect(...)` panic taken
when not even the first character satisfies the predicate is modelled by
`none`; otherwise the token is the maximal satisfying prefix and the rest
of the buffer remains.

`get_next_token` models `Lexer::get_next_token`; the outer `Option` is the
panic (`none` = the `expect` in `chomp_while` fires), the inner `Option`
is the end-of-input result of the source function.  The third branch of
the source calls `chomp_while` with a stateful closure that accepts
exactly the first character, hence consumes exactly one character of the
(non-empty) buffer. -/

def skip_whitespaces (s : List Char) : List Char :=
  match s.findIdx? (fun c => !(isAsciiWhitespace c) && !(c == '\n')) with
  | some i => s.drop i
  | none => s

def chomp_while (p : Char → Bool) (s : List Char) : Option (List Char × List Char) :=
  if s.takeWhile p = [] then none
  else some (s.takeWhile p, s.drop (s.takeWhile p).length)

def isDigitOrDot (c : Char) : Bool :=
  isAsciiDigit c || c == '.'

def isWordChar (c : Char) : Bool :=
  rustIsAlphanumeric c || c == '_'

def get_next_token (s : List Char) : Option (Option (List Char × List Char)) :=
  match skip_whitespaces s with
  | [] => some none
  | c :: rest =>
    if isAsciiDigit c then
      (chomp_while isDigitOrDot (c :: rest)).map some
    else if isAsciiAlphabetic c then
      (chomp_while isWordChar (c :: rest)).map some
    else
      some (some ([c], rest))

/-- Fuel-indexed iteration of `get_next_token`; the source iterates until
`None`.  The panic case stops the scan here and is proved unreachable
(`get_next_token_ne_none`). -/
def lexGo : Nat → List Char → List (List Char)
  | 0, _ => []
  | fuel + 1, s =>
    match get_next_token s with
    | none => []
    | some none => []
    | some (some (t, rest)) => t :: lexGo fuel rest

/-- The token sequence produced by `Lexer::new(s)` used as an iterator.
`s.length` units of fuel always suffice (`lexGo_congr`). -/
def lexTokens (s : List Char) : List (List Char) :=
  lexGo s.length s

/-! Basic facts about the lexer needed for adequacy of the fuel. -/

theorem skip_whitespaces_length_le (s : List Char) :
    (skip_whitespaces s).length ≤ s.length := by
  unfold skip_whitespaces
  cases h : s.findIdx? (fun c => !(isAsciiWhitespace c) && !(c == '\n')) with
  | none => exact Nat.le_refl _
  | some i => simp

theorem chomp_while_eq (p : Char → Bool) (s : List Char)
    (pr : List Char × List Char) (h : chomp_while p s = some pr) :
    pr.1 = s.takeWhile p ∧ pr.2 = s.drop pr.1.length ∧ pr.1 ≠ [] := by
  unfold chomp_while at h
  by_cases ht : s.takeWhile p = []
  · rw [if_pos ht] at h; cases h
  · rw [if_neg ht] at h
    cases h
    exact ⟨rfl, rfl, ht⟩

theorem get_next_token_cons (s : List Char) (c : Char) (cs : List Char)
    (hs : skip_whitespaces s = c :: cs) :
    get_next_token s =
      if isAsciiDigit c then (chomp_while isDigitOrDot (c :: cs)).map some
      else if isAsciiAlphabetic c then (chomp_while isWordChar (c :: cs)).map some
      else some (some ([c], cs)) := by
  unfold get_next_token
  rw [hs]

theorem get_next_token_end (s : List Char) (hs : skip_whitespaces s = []) :
    get_next_token s = some none := by
  unfold get_next_token
  rw [hs]

theorem get_next_token_nil : get_next_token [] = some none := by
  apply get_next_token_end
  rfl

theorem get_next_token_shrinks (s t rest : List Char)
    (h : get_next_token s = some (some (t, rest))) :
    rest.length < s.length := by
  cases hs : skip_whitespaces s with
  | nil => rw [get_next_token_end s hs] at h; cases h
  | cons c cs =>
    have hlen : cs.length + 1 ≤ s.length := by
      have := skip_whitespaces_length_le s
      rw [hs] at this; simpa using this
    rw [get_next_token_cons s c cs hs] at h
    by_cases hd : isAsciiDigit c
    · rw [if_pos hd] at h
      cases hc : chomp_while isDigitOrDot (c :: cs) with
      | none => rw [hc] at h; cases h
      | some pr =>
        obtain ⟨ht, hrest, hne⟩ := chomp_while_eq _ _ pr hc
        rw [hc, Option.map_some'] at h
        cases h
        dsimp only at ht hrest hne
        have htpos : 0 < t.length := List.length_pos.mpr hne
        rw [hrest]
        simp only [List.length_drop, List.length_cons]
        omega
    · rw [if_neg hd] at h
      by_cases ha : isAsciiAlphabetic c
      · rw [if_pos ha] at h
        cases hc : chomp_while isWordChar (c :: cs) with
        | none => rw [hc] at h; cases h
        | some pr =>
          obtain ⟨ht, hrest, hne⟩ := chomp_while_eq _ _ pr hc
          rw [hc, Option.map_some'] at h
          cases h
          dsimp only at ht hrest hne
          have htpos : 0 < t.length := List.length_pos.mpr hne
          rw [hrest]
          simp only [List.length_drop, List.length_cons]
          omega
      · rw [if_neg ha] at h
        cases h
        exact Nat.lt_of_lt_of_le (by simp) hlen

theorem lexGo_congr : ∀ (f1 : Nat) (f2 : Nat) (s : List Char),
    s.length ≤ f1 → s.length ≤ f2 → lexGo f1 s = lexGo f2 s := by
  intro f1
  induction f1 with
  | zero =>
    intro f2 s h1 h2
    have hnil : s = [] := List.eq_nil_of_length_eq_zero (Nat.le_zero.mp h1)
    subst hnil
    cases f2 with
    | zero => rfl
    | succ k => simp [lexGo, get_next_token_nil]
  | succ n ih =>
    intro f2 s h1 h2
    cases f2 with
    | zero =>
      have hnil : s = [] := List.eq_nil_of_length_eq_zero (Nat.le_zero.mp h2)
      subst hnil
      simp [lexGo, get_next_token_nil]
    | succ k =>
      cases h : get_next_token s with
      | none => simp [lexGo, h]
      | some o =>
        cases o with
        | none => simp [lexGo, h]
        | some pr =>
          have hlt : pr.2.length < s.length :=
            get_next_token_shrinks s pr.1 pr.2 (by rw [h])
          simp only [lexGo, h]
          rw [ih k pr.2 (by omega) (by omega)]

/-- One-step unfolding of `lexTokens`. -/
theorem lexTokens_eq (s : List Char) :
    lexTokens s = match get_next_token s with
      | none => []
      | some none => []
      | some (some (t, rest)) => t :: lexTokens rest := by
  cases h : get_next_token s with
  | none =>
    unfold lexTokens
    cases hsl : s.length with
    | zero =>
      have hnil : s = [] := List.eq_nil_of_length_eq_zero hsl
      subst hnil
      rw [get_next_token_nil] at h
      cases h
    | succ m => simp [lexGo, h]
  | some o =>
    cases o with
    | none =>
      unfold lexTokens
      cases hsl : s.length with
      | zero => simp [lexGo]
      | succ m => simp [lexGo, h]
    | some pr =>
      have hlt : pr.2.length < s.length :=
        get_next_token_shrinks s pr.1 pr.2 (by rw [h])
      unfold lexTokens
      cases hsl : s.length with
      | zero => omega
      | succ m =>
        simp only [lexGo, h]
        rw [lexGo_congr m pr.2.length pr.2 (by omega) (Nat.le_refl _)]


/-! ### Auxiliary list lemmas -/

theorem drop_takeWhile_length (p : Char → Bool) :
    ∀ s : List Char, s.drop (s.takeWhile p).length = s.dropWhile p := by
  intro s
  induction s with
  | nil => rfl
  | cons a l ih =>
    by_cases h : p a
    · simp only [List.takeWhile_cons, List.dropWhile_cons, h, if_true, List.length_cons,
        List.drop_succ_cons]
      exact ih
    · simp [List.takeWhile_cons, List.dropWhile_cons, h]

theorem chomp_while_spec (p : Char → Bool) (a : Char) (l : List Char) (h : p a = true) :
    chomp_while p (a :: l) = some ((a :: l).takeWhile p, (a :: l).dropWhile p) := by
  unfold chomp_while
  rw [if_neg, drop_takeWhile_length]
  rw [List.takeWhile_cons, if_pos h]
  simp

theorem findIdx?_not_none_drop (p : Char → Bool) :
    ∀ (s : List Char), s.findIdx? (fun c => !(p c)) = none → s.dropWhile p = [] := by
  intro s
  induction s with
  | nil => intro _; rfl
  | cons a l ih =>
    intro h
    rw [List.findIdx?_cons] at h
    by_cases hp : p a
    · have hnp : (!(p a)) = false := by simp [hp]
      rw [hnp, if_neg (by simp), List.findIdx?_succ] at h
      have : l.findIdx? (fun c => !(p c)) = none := by
        cases hf : l.findIdx? (fun c => !(p c)) with
        | none => rfl
        | some j => rw [hf, Option.map_some'] at h; cases h
      rw [List.dropWhile_cons, if_pos hp]
      exact ih this
    · rw [if_pos (by simp [hp])] at h
      cases h

theorem findIdx?_not_some_drop (p : Char → Bool) :
    ∀ (s : List Char) (i : Nat), s.findIdx? (fun c => !(p c)) = some i →
      s.drop i = s.dropWhile p := by
  intro s
  induction s with
  | nil => intro i h; cases h
  | cons a l ih =>
    intro i h
    rw [List.findIdx?_cons] at h
    by_cases hp : p a
    · have hnp : (!(p a)) = false := by simp [hp]
      rw [hnp, if_neg (by simp), List.findIdx?_succ] at h
      cases hf : l.findIdx? (fun c => !(p c)) with
      | none => rw [hf, Option.map_none'] at h; cases h
      | some j =>
        rw [hf, Option.map_some'] at h
        injection h with h1
        rw [← h1, List.drop_succ_cons, List.dropWhile_cons, if_pos hp]
        exact ih j hf
    · rw [if_pos (by simp [hp])] at h
      injection h with h1
      rw [← h1, List.drop_zero, List.dropWhile_cons, if_neg (by simp [hp])]

/-! ### Reference scan (spec side, for claim C2)

`refScanStep` is modelled from the claim's words: "at each scan position
skip leading ASCII whitespace (including newline), then (1) if the next
character is an ASCII digit consume the longest run of ASCII digits and
dots, (2) else if ASCII-alphabetic consume the longest run of alphanumeric
characters and underscores, (3) else consume exactly one character".

`refSkipAmended`/`refScanStepAmended` amend exactly the whitespace-skipping
clause to match the source's `skip_whitespaces`, which leaves the buffer
unchanged when only whitespace remains; a fully-whitespace remainder is
then consumed by rule (3) one character at a time. -/

def refScanStep (s : List Char) : Option (List Char × List Char) :=
  match s.dropWhile isAsciiWhitespace with
  | [] => none
  | c :: rest =>
    if isAsciiDigit c then
      some ((c :: rest).takeWhile isDigitOrDot, (c :: rest).dropWhile isDigitOrDot)
    else if isAsciiAlphabetic c then
      some ((c :: rest).takeWhile isWordChar, (c :: rest).dropWhile isWordChar)
    else
      some ([c], rest)

def refSkipAmended (s : List Char) : List Char :=
  if s.dropWhile isAsciiWhitespace = [] then s else s.dropWhile isAsciiWhitespace

def refScanStepAmended (s : List Char) : Option (List Char × List Char) :=
  match refSkipAmended s with
  | [] => none
  | c :: rest =>
    if isAsciiDigit c then
      some ((c :: rest).takeWhile isDigitOrDot, (c :: rest).dropWhile isDigitOrDot)
    else if isAsciiAlphabetic c then
      some ((c :: rest).takeWhile isWordChar, (c :: rest).dropWhile isWordChar)
    else
      some ([c], rest)

/-- Generic fuel-indexed scanner iteration, shared by the two reference
scans. -/
def scanGo (step : List Char → Option (List Char × List Char)) :
    Nat → List Char → List (List Char)
  | 0, _ => []
  | fuel + 1, s =>
    match step s with
    | none => []
    | some (t, rest) => t :: scanGo step fuel rest

def refScan (s : List Char) : List (List Char) :=
  scanGo refScanStep s.length s

def refScanAmended (s : List Char) : List (List Char) :=
  scanGo refScanStepAmended s.length s

/-! ### The code lexer agrees with the amended reference scan -/

theorem skip_whitespaces_eq_refSkipAmended (s : List Char) :
    skip_whitespaces s = refSkipAmended s := by
  have hfun : (fun c => !(isAsciiWhitespace c) && !(c == '\n')) =
      (fun c => !(isAsciiWhitespace c)) := by
    funext c
    by_cases h : c = '\n'
    · subst h; rfl
    · simp [h]
  unfold skip_whitespaces refSkipAmended
  rw [hfun]
  cases hf : s.findIdx? (fun c => !(isAsciiWhitespace c)) with
  | none =>
    rw [if_pos (findIdx?_not_none_drop _ s hf)]
  | some i =>
    show s.drop i =
      if s.dropWhile isAsciiWhitespace = [] then s else s.dropWhile isAsciiWhitespace
    rw [findIdx?_not_some_drop _ s i hf]
    by_cases hd : s.dropWhile isAsciiWhitespace = []
    · rw [if_pos hd, hd]
      have : s.findIdx? (fun c => !(isAsciiWhitespace c)) = none := by
        rw [List.findIdx?_eq_none_iff]
        intro x hx
        have := List.dropWhile_eq_nil_iff.mp hd x hx
        simp [this]
      rw [this] at hf
      cases hf
    · rw [if_neg hd]

theorem refScanStepAmended_end (s : List Char) (h : refSkipAmended s = []) :
    refScanStepAmended s = none := by
  unfold refScanStepAmended
  rw [h]

theorem refScanStepAmended_cons (s : List Char) (c : Char) (cs : List Char)
    (h : refSkipAmended s = c :: cs) :
    refScanStepAmended s =
      if isAsciiDigit c then
        some ((c :: cs).takeWhile isDigitOrDot, (c :: cs).dropWhile isDigitOrDot)
      else if isAsciiAlphabetic c then
        some ((c :: cs).takeWhile isWordChar, (c :: cs).dropWhile isWordChar)
      else some ([c], cs) := by
  unfold refScanStepAmended
  rw [h]

theorem get_next_token_eq_step (s : List Char) :
    get_next_token s = some (refScanStepAmended s) := by
  have hskip := skip_whitespaces_eq_refSkipAmended s
  cases h : refSkipAmended s with
  | nil => rw [get_next_token_end s (hskip.trans h), refScanStepAmended_end s h]
  | cons c cs =>
    rw [get_next_token_cons s c cs (hskip.trans h), refScanStepAmended_cons s c cs h]
    by_cases hd : isAsciiDigit c
    · have hp : isDigitOrDot c = true := by simp [isDigitOrDot, hd]
      rw [if_pos hd, if_pos hd, chomp_while_spec _ _ _ hp, Option.map_some']
    · rw [if_neg hd, if_neg hd]
      by_cases ha : isAsciiAlphabetic c
      · have hp : isWordChar c = true := by
          simp [isWordChar, rustIsAlphanumeric, ha]
        rw [if_pos ha, if_pos ha, chomp_while_spec _ _ _ hp, Option.map_some']
      · rw [if_neg ha, if_neg ha]

theorem get_next_token_ne_none (s : List Char) : get_next_token s ≠ none := by
  rw [get_next_token_eq_step s]
  simp

theorem refScanStepAmended_shrinks (s t rest : List Char)
    (h : refScanStepAmended s = some (t, rest)) : rest.length < s.length := by
  apply get_next_token_shrinks s t rest
  rw [get_next_token_eq_step s, h]

theorem scanGo_amended_congr : ∀ (f1 f2 : Nat) (s : List Char),
    s.length ≤ f1 → s.length ≤ f2 →
    scanGo refScanStepAmended f1 s = scanGo refScanStepAmended f2 s := by
  intro f1
  induction f1 with
  | zero =>
    intro f2 s h1 h2
    have hnil : s = [] := List.eq_nil_of_length_eq_zero (Nat.le_zero.mp h1)
    subst hnil
    cases f2 with
    | zero => rfl
    | succ k =>
      cases h : refScanStepAmended [] with
      | none => simp [scanGo, h]
      | some pr =>
        have := refScanStepAmended_shrinks [] pr.1 pr.2 (by rw [h])
        simp at this
  | succ n ih =>
    intro f2 s h1 h2
    cases f2 with
    | zero =>
      have hnil : s = [] := List.eq_nil_of_length_eq_zero (Nat.le_zero.mp h2)
      subst hnil
      cases h : refScanStepAmended [] with
      | none => simp [scanGo, h]
      | some pr =>
        have := refScanStepAmended_shrinks [] pr.1 pr.2 (by rw [h])
        simp at this
    | succ k =>
      cases h : refScanStepAmended s with
      | none => simp [scanGo, h]
      | some pr =>
        have hlt : pr.2.length < s.length :=
          refScanStepAmended_shrinks s pr.1 pr.2 (by rw [h])
        simp only [scanGo, h]
        rw [ih k pr.2 (by omega) (by omega)]

theorem refScanAmended_eq (s : List Char) :
    refScanAmended s = match refScanStepAmended s with
      | none => []
      | some (t, rest) => t :: refScanAmended rest := by
  cases h : refScanStepAmended s with
  | none =>
    unfold refScanAmended
    cases hsl : s.length with
    | zero => simp [scanGo]
    | succ m => simp [scanGo, h]
  | some pr =>
    have hlt : pr.2.length < s.length :=
      refScanStepAmended_shrinks s pr.1 pr.2 (by rw [h])
    unfold refScanAmended
    cases hsl : s.length with
    | zero => omega
    | succ m =>
      simp only [scanGo, h]
      rw [scanGo_amended_congr m pr.2.length pr.2 (by omega) (Nat.le_refl _)]

theorem lexTokens_eq_refScanAmended : ∀ s : List Char, lexTokens s = refScanAmended s := by
  have H : ∀ (n : Nat) (s : List Char), s.length ≤ n → lexTokens s = refScanAmended s := by
    intro n
    induction n with
    | zero =>
      intro s hs
      have hnil : s = [] := List.eq_nil_of_length_eq_zero (Nat.le_zero.mp hs)
      subst hnil
      rfl
    | succ n ih =>
      intro s hs
      rw [lexTokens_eq, refScanAmended_eq, get_next_token_eq_step s]
      cases h : refScanStepAmended s with
      | none => rfl
      | some pr =>
        have hlt : pr.2.length < s.length :=
          refScanStepAmended_shrinks s pr.1 pr.2 (by rw [h])
        simp only []
        rw [ih pr.2 (by omega)]
  intro s
  exact H s.length s (Nat.le_refl _)

/-! ### Case-insensitive string key (`src/case_insensitive_string.rs`)

`eq_ignore_ascii_case` models `str::eq_ignore_ascii_case`, used by
`PartialEq for CaseInsensitiveString` (equal length and pairwise
ASCII-case-insensitive character equality; folding a character is
`to_ascii_lowercase`).

`cisCmp` models `PartialOrd/Ord for CaseInsensitiveString`: walk the two
strings in lockstep comparing ASCII-uppercased characters; on `Greater`
return `Greater`, on `Less` the source returns `Some(Ordering::Equal)`;
when one string is exhausted, compare the lengths.  (The source compares
the full lengths there; since the loop consumed equally many characters
from both, comparing the remaining lengths yields the same `Ordering`.)
`Option`-typed `partial_cmp` never returns `None` on `char`, so `cmp`'s
`unwrap` is elided. -/

def eq_ignore_ascii_case (a b : List Char) : Bool :=
  a.length == b.length &&
    (a.zip b).all fun p => rustToAsciiLowercase p.1 == rustToAsciiLowercase p.2

def cisCmp : List Char → List Char → Ordering
  | c1 :: a, c2 :: b =>
    match compare (rustToAsciiUppercase c1) (rustToAsciiUppercase c2) with
    | Ordering.eq => cisCmp a b
    | Ordering.gt => Ordering.gt
    | Ordering.lt => Ordering.eq
  | a, b => compare a.length b.length

/-! Facts about ASCII case folding on characters. -/

theorem char_ofNat_toNat (n : Nat) (h : n < 55296) : (Char.ofNat n).toNat = n := by
  unfold Char.ofNat
  rw [dif_pos (Or.inl h)]
  rfl

theorem char_le_toNat (c d : Char) : (c ≤ d) ↔ c.toNat ≤ d.toNat :=
  Iff.rfl

theorem lower_eq_toNat (c : Char) : rustToAsciiLowercase c =
    if 65 ≤ c.toNat ∧ c.toNat ≤ 90 then Char.ofNat (c.toNat + 32) else c := by
  unfold rustToAsciiLowercase
  apply if_congr _ rfl rfl
  exact and_congr (char_le_toNat _ _) (char_le_toNat _ _)

theorem upper_eq_toNat (c : Char) : rustToAsciiUppercase c =
    if 97 ≤ c.toNat ∧ c.toNat ≤ 122 then Char.ofNat (c.toNat - 32) else c := by
  unfold rustToAsciiUppercase
  apply if_congr _ rfl rfl
  exact and_congr (char_le_toNat _ _) (char_le_toNat _ _)

theorem lower_upper (c : Char) :
    rustToAsciiLowercase (rustToAsciiUppercase c) = rustToAsciiLowercase c := by
  rw [upper_eq_toNat]
  by_cases h : 97 ≤ c.toNat ∧ c.toNat ≤ 122
  · rw [if_pos h]
    have htn : (Char.ofNat (c.toNat - 32)).toNat = c.toNat - 32 :=
      char_ofNat_toNat _ (by omega)
    rw [lower_eq_toNat, if_pos (by omega), lower_eq_toNat, if_neg (by omega), htn]
    have : c.toNat - 32 + 32 = c.toNat := by omega
    rw [this, Char.ofNat_toNat]
  · rw [if_neg h]

theorem lower_lower (c : Char) :
    rustToAsciiLowercase (rustToAsciiLowercase c) = rustToAsciiLowercase c := by
  by_cases h : 65 ≤ c.toNat ∧ c.toNat ≤ 90
  · rw [lower_eq_toNat c, if_pos h]
    have htn : (Char.ofNat (c.toNat + 32)).toNat = c.toNat + 32 :=
      char_ofNat_toNat _ (by omega)
    rw [lower_eq_toNat, if_neg (by omega)]
  · rw [lower_eq_toNat c, if_neg h]
    rw [lower_eq_toNat c, if_neg h]

theorem nonascii_unfolded (c : Char) (h : 128 ≤ c.toNat) :
    rustToAsciiLowercase c = c ∧ rustToAsciiUppercase c = c := by
  constructor
  · rw [lower_eq_toNat, if_neg (by omega)]
  · rw [upper_eq_toNat, if_neg (by omega)]

/-- Key equality is exactly equality of the ASCII-case-folded character
sequences. -/
theorem eq_ignore_ascii_case_iff : ∀ (a b : List Char),
    eq_ignore_ascii_case a b = true ↔
      a.map rustToAsciiLowercase = b.map rustToAsciiLowercase := by
  intro a
  induction a with
  | nil =>
    intro b
    cases b with
    | nil => simp [eq_ignore_ascii_case]
    | cons c l => simp [eq_ignore_ascii_case]
  | cons c1 a ih =>
    intro b
    cases b with
    | nil => simp [eq_ignore_ascii_case]
    | cons c2 l =>
      constructor
      · intro h
        simp only [eq_ignore_ascii_case, List.zip_cons_cons, List.all_cons,
          List.length_cons, Bool.and_eq_true, beq_iff_eq] at h
        obtain ⟨hlen, hc, hall⟩ := h
        simp only [List.map_cons, List.cons.injEq]
        refine ⟨hc, ?_⟩
        apply (ih l).mp
        simp only [eq_ignore_ascii_case, Bool.and_eq_true, beq_iff_eq]
        exact ⟨by omega, hall⟩
      · intro h
        simp only [List.map_cons, List.cons.injEq] at h
        obtain ⟨hc, hmap⟩ := h
        have := (ih l).mpr hmap
        simp only [eq_ignore_ascii_case, Bool.and_eq_true, beq_iff_eq] at this
        obtain ⟨hlen, hall⟩ := this
        simp only [eq_ignore_ascii_case, List.zip_cons_cons, List.all_cons,
          List.length_cons, Bool.and_eq_true, beq_iff_eq]
        exact ⟨by omega, hc, hall⟩

/-- Claim C7: term-key equality is ASCII-case-insensitive: every string is
key-equal to its ASCII uppercasing and to its ASCII lowercasing; two keys
are equal iff their sequences of ASCII-case-folded characters are
identical; non-ASCII characters are compared verbatim and left unfolded
by the case folding. -/
theorem C7_key_equality_case_insensitive :
    (∀ s : List Char, eq_ignore_ascii_case s (s.map rustToAsciiUppercase) = true ∧
      eq_ignore_ascii_case s (s.map rustToAsciiLowercase) = true) ∧
    (∀ a b : List Char, eq_ignore_ascii_case a b = true ↔
      a.map rustToAsciiLowercase = b.map rustToAsciiLowercase) ∧
    (∀ c : Char, 128 ≤ c.toNat →
      rustToAsciiLowercase c = c ∧ rustToAsciiUppercase c = c) := by
  refine ⟨?_, eq_ignore_ascii_case_iff, nonascii_unfolded⟩
  intro s
  constructor
  · apply (eq_ignore_ascii_case_iff _ _).mpr
    rw [List.map_map]
    apply List.map_congr_left
    intro a ha
    simp only [Function.comp_apply]
    exact (lower_upper a).symm
  · apply (eq_ignore_ascii_case_iff _ _).mpr
    rw [List.map_map]
    apply List.map_congr_left
    intro a ha
    simp only [Function.comp_apply]
    exact (lower_lower a).symm

/-- Witness for C7 at concrete inputs. -/
theorem C7_key_equality_case_insensitive_witness :
    eq_ignore_ascii_case ("Rust".toList) ("RUST".toList) = true ∧
    (rustToAsciiLowercase (Char.ofNat 233) = Char.ofNat 233 ∧
      rustToAsciiUppercase (Char.ofNat 233) = Char.ofNat 233) := by
  constructor
  · exact (C7_key_equality_case_insensitive.2.1 _ _).mpr (by decide)
  · exact C7_key_equality_case_insensitive.2.2 (Char.ofNat 233) (by decide)

/-- Claim C3 (refuted — code bug): the source's `Ordering::Less` branch
returns `Some(Ordering::Equal)`, so the comparison is not consistent with
equality and not antisymmetric: comparing "a" with "b" yields `Equal`
although the keys are unequal, while the opposite order yields `Greater`.
This evaluates the embedded comparison at that failing input. -/
theorem C3_cmp_inconsistent_with_eq :
    cisCmp ("a".toList) ("b".toList) = Ordering.eq ∧
    eq_ignore_ascii_case ("a".toList) ("b".toList) = false ∧
    cisCmp ("b".toList) ("a".toList) = Ordering.gt ∧
    eq_ignore_ascii_case ("a".toList) ("a".toList) = true := by
  decide

/-! ### Term-frequency tables and Documents (`src/lib.rs`, `src/tokenizer.rs`)

The Rust `HashMap<CaseInsensitiveString, usize>` is modelled as an
association list looked up through `eq_ignore_ascii_case` (the `Hash`
implementation hashes the lowercased bytes, so hash-bucket lookup agrees
with this equality).  `bumpTerm` models the shared
"`get_mut` += 1, else `insert(key, 1)`" pattern of
`Tokenizer::tokenize_string` and of the document-frequency merge in
`apply_tokenizer!`; a fresh key is stored with its first-seen case. -/

def tableGet (table : List (List Char × Nat)) (t : List Char) : Option Nat :=
  (table.find? fun e => eq_ignore_ascii_case e.1 t).map Prod.snd

def bumpTerm (table : List (List Char × Nat)) (t : List Char) : List (List Char × Nat) :=
  match table with
  | [] => [(t, 1)]
  | e :: rest =>
    if eq_ignore_ascii_case e.1 t then (e.1, e.2 + 1) :: rest
    else e :: bumpTerm rest t

/-- Model of `Tokenizer::tokenize_string`: lex `s`, fold each token into the given
table, and return the new table with the number of tokens seen. -/
def tokenize_string (table : List (List Char × Nat)) (s : List Char) :
    List (List Char × Nat) × Nat :=
  (lexTokens s).foldl (fun acc t => (bumpTerm acc.1 t, acc.2 + 1)) (table, 0)

structure Document where
  term_frequency : List (List Char × Nat)
  count : Nat
deriving DecidableEq

/-- Model of `Document::build`: tokenize the file's text into an initially empty
table, accumulating the total token count.  A plain-text file is a single
chunk (`TextTokenizer` lexes the whole decoded stream); an XML file
contributes one chunk per character-data event (`XmlTokenizer`), with the
per-chunk counts summed. -/
def Document.build (chunks : List (List Char)) : Document :=
  chunks.foldl
    (fun d s =>
      let r := tokenize_string d.term_frequency s
      ⟨r.1, d.count + r.2⟩)
    ⟨[], 0⟩

/-- Model of `Document::term_frequency`: stored count over total count, `0.0` when
absent; `f64` division is modelled exactly in `ℚ`. -/
def Document.termFrequency (d : Document) (t : List Char) : ℚ :=
  match tableGet d.term_frequency t with
  | some c => (c : ℚ) / (d.count : ℚ)
  | none => 0

/-- Model of `Document::contains`. -/
def Document.contains (d : Document) (t : List Char) : Bool :=
  (tableGet d.term_frequency t).isSome

/-- The occurrence count of a term in a document (0 when absent). -/
def occurrences (d : Document) (t : List Char) : Nat :=
  (tableGet d.term_frequency t).getD 0

theorem termFrequency_some (d : Document) (t : List Char) (c : Nat)
    (h : tableGet d.term_frequency t = some c) :
    d.termFrequency t = (c : ℚ) / (d.count : ℚ) := by
  unfold Document.termFrequency
  rw [h]

theorem termFrequency_none (d : Document) (t : List Char)
    (h : tableGet d.term_frequency t = none) :
    d.termFrequency t = 0 := by
  unfold Document.termFrequency
  rw [h]


/-! ### The document invariant (claim C6) -/

theorem bumpTerm_sum (table : List (List Char × Nat)) (t : List Char) :
    ((bumpTerm table t).map Prod.snd).sum = (table.map Prod.snd).sum + 1 := by
  induction table with
  | nil => simp [bumpTerm]
  | cons e rest ih =>
    by_cases h : eq_ignore_ascii_case e.1 t
    · simp only [bumpTerm, h, if_true, List.map_cons, List.sum_cons]
      omega
    · simp only [bumpTerm, h, if_false, Bool.false_eq_true, List.map_cons, List.sum_cons, ih]
      omega

theorem bumpTerm_pos (table : List (List Char × Nat)) (t : List Char)
    (hT : ∀ x ∈ table, 1 ≤ x.2) :
    ∀ x ∈ bumpTerm table t, 1 ≤ x.2 := by
  induction table with
  | nil =>
    intro x hx
    simp only [bumpTerm, List.mem_singleton] at hx
    subst hx
    exact Nat.le_refl 1
  | cons e rest ih =>
    intro x hx
    by_cases h : eq_ignore_ascii_case e.1 t
    · simp only [bumpTerm, h, if_true, List.mem_cons] at hx
      cases hx with
      | inl hx => rw [hx]; exact Nat.le_add_left 1 e.2
      | inr hx => exact hT x (List.mem_cons_of_mem e hx)
    · simp only [bumpTerm, h, if_false, Bool.false_eq_true, List.mem_cons] at hx
      cases hx with
      | inl hx => rw [hx]; exact hT e (List.mem_cons_self e rest)
      | inr hx =>
        exact ih (fun y hy => hT y (List.mem_cons_of_mem e hy)) x hx

theorem tokfold_invariant (ts : List (List Char)) :
    ∀ (T : List (List Char × Nat)) (n : Nat),
    (((ts.foldl (fun acc t => (bumpTerm acc.1 t, acc.2 + 1)) (T, n)).1.map Prod.snd).sum
        = (T.map Prod.snd).sum + ts.length) ∧
    ((ts.foldl (fun acc t => (bumpTerm acc.1 t, acc.2 + 1)) (T, n)).2 = n + ts.length) ∧
    ((∀ x ∈ T, 1 ≤ x.2) →
      ∀ x ∈ (ts.foldl (fun acc t => (bumpTerm acc.1 t, acc.2 + 1)) (T, n)).1, 1 ≤ x.2) := by
  induction ts with
  | nil =>
    intro T n
    refine ⟨by simp, by simp, ?_⟩
    intro h
    simpa using h
  | cons t ts ih =>
    intro T n
    simp only [List.foldl_cons, List.length_cons]
    obtain ⟨h1, h2, h3⟩ := ih (bumpTerm T t) (n + 1)
    refine ⟨?_, ?_, ?_⟩
    · rw [h1, bumpTerm_sum]
      omega
    · rw [h2]
      omega
    · intro hT
      exact h3 (bumpTerm_pos T t hT)

def docInvariant (d : Document) : Prop :=
  d.count = (d.term_frequency.map Prod.snd).sum ∧ ∀ x ∈ d.term_frequency, 1 ≤ x.2

theorem build_fold_invariant (chunks : List (List Char)) :
    ∀ d : Document, docInvariant d →
      docInvariant (chunks.foldl (fun d s =>
        let r := tokenize_string d.term_frequency s
        ⟨r.1, d.count + r.2⟩) d) := by
  induction chunks with
  | nil => intro d hd; exact hd
  | cons s chunks ih =>
    intro d hd
    simp only [List.foldl_cons]
    apply ih
    obtain ⟨hsum, hpos⟩ := hd
    obtain ⟨h1, h2, h3⟩ := tokfold_invariant (lexTokens s) d.term_frequency 0
    constructor
    · show d.count + (tokenize_string d.term_frequency s).2 =
        (((tokenize_string d.term_frequency s).1).map Prod.snd).sum
      unfold tokenize_string
      rw [h1, h2, hsum]
      omega
    · show ∀ x ∈ (tokenize_string d.term_frequency s).1, 1 ≤ x.2
      unfold tokenize_string
      exact h3 hpos

/-- Claim C6: every Document produced by tokenization satisfies
`count = sum(term_frequency.values())`, and every stored occurrence count
is at least 1. -/
theorem C6_document_invariant (chunks : List (List Char)) :
    (Document.build chunks).count =
      ((Document.build chunks).term_frequency.map Prod.snd).sum ∧
    ∀ x ∈ (Document.build chunks).term_frequency, 1 ≤ x.2 := by
  exact build_fold_invariant chunks ⟨[], 0⟩ ⟨rfl, by simp⟩

/-! ### Index (`src/lib.rs`)

Paths (`PathBuf`) are modelled as `List Char` compared by plain equality.
`Index.new` folds the body of `apply_tokenizer!` over the stream of files
produced by the tree traversal: each file is a path together with either
`some` list of text chunks (the document is readable and tokenizes
successfully; `Document.build` is applied to it) or `none` (skipped after
a logged per-file error).  `HashMap::insert` replaces the value under an
existing key, modelled by `insertDoc`. -/

structure Index where
  documents : List (List Char × Document)
  term_frequency : List (List Char × Nat)
deriving DecidableEq

def insertDoc (docs : List (List Char × Document)) (p : List Char) (d : Document) :
    List (List Char × Document) :=
  if docs.any fun e => e.1 == p then
    docs.map fun e => if e.1 == p then (e.1, d) else e
  else docs ++ [(p, d)]

/-- Body of `apply_tokenizer!` after a successful `Document::build`: bump
the document-frequency entry of each key of the new document's table by 1
(insert 1 when absent), and insert the document under its path. -/
def applyTokenizer (idx : Index) (p : List Char) (d : Document) : Index :=
  { documents := insertDoc idx.documents p d
    term_frequency := d.term_frequency.foldl (fun tf e => bumpTerm tf e.1) idx.term_frequency }

/-- One step of the `Index::new` build loop: a successfully built document
is merged via `apply_tokenizer!`; a failed file leaves the index
unchanged. -/
def newStep (idx : Index) (f : List Char × Option (List (List Char))) : Index :=
  match f.2 with
  | some chunks => applyTokenizer idx f.1 (Document.build chunks)
  | none => idx

/-- Model of `Index::new`, with the tree traversal and per-file tokenizer outcomes
abstracted into the `files` list. -/
def Index.new (files : List (List Char × Option (List (List Char)))) : Index :=
  files.foldl newStep ⟨[], []⟩

/-- The number of documents of the index containing `t`: this is what
`Index::idf` recounts with `documents.values().filter(...).count()`, and
it is the document frequency in the sense of §3 of the spec. -/
def dfCount (idx : Index) (t : List Char) : Nat :=
  (idx.documents.filter fun pd => pd.2.contains t).length

/-- Model of `Index::idf`: `(n / (d + 1)).log2` over `f64`, in `ℝ`.  Only
the documents map is read; the index-level `term_frequency` table is not
consulted. -/
noncomputable def Index.idf (idx : Index) (t : List Char) : ℝ :=
  Real.logb 2 ((idx.documents.length : ℝ) / ((dfCount idx t : ℝ) + 1))

/-- Model of `Index::search`: lex the query, pair every raw token with its idf,
score every document by the sum of `term_frequency * idf` over the query
tokens, drop exact-zero scores, sort ascending by score and reverse. -/
noncomputable def Index.search (idx : Index) (q : List Char) : List (List Char × ℝ) :=
  let terms := (lexTokens q).map fun t => (t, idx.idf t)
  let results := (idx.documents.map fun pd =>
      (pd.1, (terms.map fun ti => ((pd.2.termFrequency ti.1 : ℚ) : ℝ) * ti.2).sum)).filter
    fun r => decide (r.2 ≠ 0)
  (results.insertionSort fun a b => a.2 ≤ b.2).reverse

/-- Claim C9: search depends only on the documents map.  Two indexes with
equal `documents` but arbitrary index-level `term_frequency` tables give
identical idf values and identical search results for every query: the
stored document-frequency table is never read (idf recounts it from the
documents). -/
theorem C9_search_ignores_df_table
    (docs : List (List Char × Document))
    (tf1 tf2 : List (List Char × Nat)) (q t : List Char) :
    Index.search ⟨docs, tf1⟩ q = Index.search ⟨docs, tf2⟩ q ∧
    Index.idf ⟨docs, tf1⟩ t = Index.idf ⟨docs, tf2⟩ t :=
  ⟨rfl, rfl⟩

/-- The score prescribed by the spec for a document against a query: the
sum over the query's raw tokens of `tf(doc, t) * log2(N / (df(t) + 1))`,
with `N` the document count and `df(t)` the document frequency of `t`. -/
noncomputable def scoreSpec (idx : Index) (q : List Char) (d : Document) : ℝ :=
  ((lexTokens q).map fun t =>
    ((d.termFrequency t : ℚ) : ℝ) *
      Real.logb 2 ((idx.documents.length : ℝ) / ((dfCount idx t : ℝ) + 1))).sum

theorem search_unfold (idx : Index) (q : List Char) :
    idx.search q =
      (((idx.documents.map fun pd => (pd.1, scoreSpec idx q pd.2)).filter
          fun r => decide (r.2 ≠ 0)).insertionSort fun a b => a.2 ≤ b.2).reverse := by
  unfold Index.search
  simp only [List.map_map]
  rfl

/-- Claim C1: the search result is sorted by descending score; it is a
permutation of the documents scored per the spec's TF-IDF formula with
the exact-zero scores removed; and it is empty when every document's
score is zero. -/
theorem C1_search_contract (idx : Index) (q : List Char) :
    (idx.search q).Pairwise (fun a b => b.2 ≤ a.2) ∧
    (idx.search q).Perm
      ((idx.documents.map fun pd => (pd.1, scoreSpec idx q pd.2)).filter
        fun r => decide (r.2 ≠ 0)) ∧
    ((∀ pd ∈ idx.documents, scoreSpec idx q pd.2 = 0) → idx.search q = []) := by
  haveI hto : IsTotal (List Char × ℝ) (fun a b => a.2 ≤ b.2) :=
    ⟨fun a b => le_total a.2 b.2⟩
  haveI htr : IsTrans (List Char × ℝ) (fun a b => a.2 ≤ b.2) :=
    ⟨fun a b c h1 h2 => le_trans h1 h2⟩
  refine ⟨?_, ?_, ?_⟩
  · rw [search_unfold]
    rw [List.pairwise_reverse]
    exact List.sorted_insertionSort _ _
  · rw [search_unfold]
    exact (List.reverse_perm _).trans (List.perm_insertionSort _ _)
  · intro h
    rw [search_unfold]
    have hfil : ((idx.documents.map fun pd => (pd.1, scoreSpec idx q pd.2)).filter
        fun r => decide (r.2 ≠ 0)) = [] := by
      apply List.filter_eq_nil_iff.mpr
      intro a ha
      obtain ⟨pd, hpd, hae⟩ := List.mem_map.mp ha
      rw [← hae]
      simp [h pd hpd]
    rw [hfil]
    rfl

/-- Witness for C1's zero-score clause at a concrete index and query. -/
theorem C1_search_contract_witness :
    Index.search ⟨[], []⟩ ("a".toList) = [] :=
  (C1_search_contract ⟨[], []⟩ ("a".toList)).2.2 (by simp)

/-! ### Construction invariant of the document-frequency table (claim C4) -/

theorem keyEq_refl (a : List Char) : eq_ignore_ascii_case a a = true :=
  (eq_ignore_ascii_case_iff a a).mpr rfl

theorem keyEq_symm {a b : List Char} (h : eq_ignore_ascii_case a b = true) :
    eq_ignore_ascii_case b a = true :=
  (eq_ignore_ascii_case_iff b a).mpr ((eq_ignore_ascii_case_iff a b).mp h).symm

theorem keyEq_trans {a b c : List Char} (h1 : eq_ignore_ascii_case a b = true)
    (h2 : eq_ignore_ascii_case b c = true) : eq_ignore_ascii_case a c = true :=
  (eq_ignore_ascii_case_iff a c).mpr
    (((eq_ignore_ascii_case_iff a b).mp h1).trans ((eq_ignore_ascii_case_iff b c).mp h2))

/-- The document-frequency recorded for `t` in an index-level table (0
when absent), as read through the case-insensitive lookup. -/
def dfLookup (idx : Index) (t : List Char) : Nat :=
  (tableGet idx.term_frequency t).getD 0

theorem tableGet_bumpTerm_eq (k t : List Char) (hkt : eq_ignore_ascii_case k t = true) :
    ∀ T : List (List Char × Nat),
      tableGet (bumpTerm T k) t = some ((tableGet T t).getD 0 + 1) := by
  intro T
  induction T with
  | nil => simp [bumpTerm, tableGet, List.find?, hkt]
  | cons e rest ih =>
    by_cases he : eq_ignore_ascii_case e.1 k
    · have het : eq_ignore_ascii_case e.1 t = true := keyEq_trans he hkt
      simp only [bumpTerm, he, if_true]
      simp [tableGet, List.find?, het]
    · have het : eq_ignore_ascii_case e.1 t = false := by
        cases hc : eq_ignore_ascii_case e.1 t with
        | false => rfl
        | true =>
          have : eq_ignore_ascii_case e.1 k = true :=
            keyEq_trans hc (keyEq_symm hkt)
          simp [this] at he
      simp only [bumpTerm, he, if_false, Bool.false_eq_true]
      simp only [tableGet, List.find?, het]
      exact ih

theorem tableGet_bumpTerm_ne (k t : List Char) (hkt : eq_ignore_ascii_case k t = false) :
    ∀ T : List (List Char × Nat), tableGet (bumpTerm T k) t = tableGet T t := by
  intro T
  induction T with
  | nil => simp [bumpTerm, tableGet, List.find?, hkt]
  | cons e rest ih =>
    by_cases he : eq_ignore_ascii_case e.1 k
    · have het : eq_ignore_ascii_case e.1 t = false := by
        cases hc : eq_ignore_ascii_case e.1 t with
        | false => rfl
        | true =>
          have : eq_ignore_ascii_case k t = true :=
            keyEq_trans (keyEq_symm he) hc
          simp [this] at hkt
      simp only [bumpTerm, he, if_true]
      simp [tableGet, List.find?, het]
    · simp only [bumpTerm, he, if_false, Bool.false_eq_true]
      cases het : eq_ignore_ascii_case e.1 t with
      | true => simp [tableGet, List.find?, het]
      | false =>
        simp only [tableGet, List.find?, het]
        exact ih

/-- Well-formedness of a term table: keys are pairwise distinct under the
case-insensitive equality (as in a `HashMap` keyed by
`CaseInsensitiveString`). -/
def tableWF (T : List (List Char × Nat)) : Prop :=
  T.Pairwise fun e1 e2 => eq_ignore_ascii_case e1.1 e2.1 = false

theorem bumpTerm_keys (k : List Char) :
    ∀ (T : List (List Char × Nat)), ∀ x ∈ bumpTerm T k,
      (∃ y ∈ T, x.1 = y.1) ∨ x.1 = k := by
  intro T
  induction T with
  | nil =>
    intro x hx
    simp only [bumpTerm, List.mem_singleton] at hx
    subst hx
    exact Or.inr rfl
  | cons e rest ih =>
    intro x hx
    by_cases he : eq_ignore_ascii_case e.1 k
    · simp only [bumpTerm, he, if_true, List.mem_cons] at hx
      cases hx with
      | inl hx => exact Or.inl ⟨e, List.mem_cons_self e rest, by rw [hx]⟩
      | inr hx => exact Or.inl ⟨x, List.mem_cons_of_mem e hx, rfl⟩
    · simp only [bumpTerm, he, if_false, Bool.false_eq_true, List.mem_cons] at hx
      cases hx with
      | inl hx => exact Or.inl ⟨e, List.mem_cons_self e rest, by rw [hx]⟩
      | inr hx =>
        cases ih x hx with
        | inl h => obtain ⟨y, hy, hxy⟩ := h; exact Or.inl ⟨y, List.mem_cons_of_mem e hy, hxy⟩
        | inr h => exact Or.inr h

theorem bumpTerm_wf (k : List Char) :
    ∀ (T : List (List Char × Nat)), tableWF T → tableWF (bumpTerm T k) := by
  intro T
  induction T with
  | nil =>
    intro _
    simp [bumpTerm, tableWF]
  | cons e rest ih =>
    intro hw
    rw [tableWF, List.pairwise_cons] at hw
    obtain ⟨hfst, hrest⟩ := hw
    by_cases he : eq_ignore_ascii_case e.1 k
    · simp only [bumpTerm, he, if_true]
      rw [tableWF, List.pairwise_cons]
      exact ⟨hfst, hrest⟩
    · simp only [bumpTerm, he, if_false, Bool.false_eq_true]
      rw [tableWF, List.pairwise_cons]
      constructor
      · intro x hx
        cases bumpTerm_keys k rest x hx with
        | inl h =>
          obtain ⟨y, hy, hxy⟩ := h
          rw [hxy]
          exact hfst y hy
        | inr h =>
          rw [h]
          simpa using he
      · exact ih hrest

theorem tokfold_wf (ts : List (List Char)) :
    ∀ (T : List (List Char × Nat)) (n : Nat), tableWF T →
      tableWF ((ts.foldl (fun acc t => (bumpTerm acc.1 t, acc.2 + 1)) (T, n)).1) := by
  induction ts with
  | nil => intro T n h; exact h
  | cons t ts ih =>
    intro T n h
    simp only [List.foldl_cons]
    exact ih (bumpTerm T t) (n + 1) (bumpTerm_wf t T h)

theorem build_wf (chunks : List (List Char)) :
    tableWF (Document.build chunks).term_frequency := by
  have H : ∀ d : Document, tableWF d.term_frequency →
      tableWF ((chunks.foldl (fun d s =>
        let r := tokenize_string d.term_frequency s
        ⟨r.1, d.count + r.2⟩) d).term_frequency) := by
    induction chunks with
    | nil => intro d h; exact h
    | cons s chunks ih =>
      intro d h
      simp only [List.foldl_cons]
      apply ih
      show tableWF (tokenize_string d.term_frequency s).1
      unfold tokenize_string
      exact tokfold_wf (lexTokens s) d.term_frequency 0 h
  exact H ⟨[], 0⟩ (by simp [tableWF])

/-- Folding `bumpTerm` over keys none of which matches `t` leaves the
lookup of `t` unchanged. -/
theorem foldBump_ne (t : List Char) :
    ∀ (L : List (List Char × Nat)) (tf : List (List Char × Nat)),
      (∀ e ∈ L, eq_ignore_ascii_case e.1 t = false) →
      tableGet (L.foldl (fun tf e => bumpTerm tf e.1) tf) t = tableGet tf t := by
  intro L
  induction L with
  | nil => intro tf _; rfl
  | cons e L ih =>
    intro tf h
    simp only [List.foldl_cons]
    rw [ih (bumpTerm tf e.1) fun y hy => h y (List.mem_cons_of_mem e hy)]
    exact tableGet_bumpTerm_ne e.1 t (h e (List.mem_cons_self e L)) tf

/-- Folding the (pairwise-distinct) keys of a document table into a
document-frequency table bumps the entry of `t` by exactly 1 when some
key matches `t`, and leaves it unchanged otherwise. -/
theorem foldBump_df (t : List Char) :
    ∀ (L : List (List Char × Nat)) (tf : List (List Char × Nat)),
      L.Pairwise (fun e1 e2 => eq_ignore_ascii_case e1.1 e2.1 = false) →
      tableGet (L.foldl (fun tf e => bumpTerm tf e.1) tf) t =
        if (∃ e ∈ L, eq_ignore_ascii_case e.1 t = true) then
          some ((tableGet tf t).getD 0 + 1)
        else tableGet tf t := by
  intro L
  induction L with
  | nil =>
    intro tf _
    rw [if_neg]
    · rfl
    · rintro ⟨e, he, _⟩
      cases he
  | cons e L ih =>
    intro tf hw
    rw [List.pairwise_cons] at hw
    obtain ⟨hfst, hrest⟩ := hw
    simp only [List.foldl_cons]
    by_cases he : eq_ignore_ascii_case e.1 t
    · have hL : ∀ y ∈ L, eq_ignore_ascii_case y.1 t = false := by
        intro y hy
        cases hc : eq_ignore_ascii_case y.1 t with
        | false => rfl
        | true =>
          have : eq_ignore_ascii_case e.1 y.1 = true :=
            keyEq_trans he (keyEq_symm hc)
          have hne := hfst y hy
          simp [this] at hne
      rw [foldBump_ne t L (bumpTerm tf e.1) hL,
        tableGet_bumpTerm_eq e.1 t he tf, if_pos ⟨e, List.mem_cons_self e L, he⟩]
    · rw [ih (bumpTerm tf e.1) hrest,
        tableGet_bumpTerm_ne e.1 t (by simpa using he) tf]
      by_cases hex : ∃ y ∈ L, eq_ignore_ascii_case y.1 t = true
      · rw [if_pos hex, if_pos]
        obtain ⟨y, hy, hyt⟩ := hex
        exact ⟨y, List.mem_cons_of_mem e hy, hyt⟩
      · rw [if_neg hex, if_neg]
        rintro ⟨y, hy, hyt⟩
        cases List.mem_cons.mp hy with
        | inl h => rw [h] at hyt; simp [hyt] at he
        | inr h => exact hex ⟨y, h, hyt⟩

theorem contains_iff_exists (d : Document) (t : List Char) :
    d.contains t = true ↔ ∃ e ∈ d.term_frequency, eq_ignore_ascii_case e.1 t = true := by
  unfold Document.contains tableGet
  rw [Option.isSome_map']
  rw [List.find?_isSome]

def pathsOf (idx : Index) : List (List Char) := idx.documents.map Prod.fst

theorem insertDoc_fresh (docs : List (List Char × Document)) (p : List Char) (d : Document)
    (h : ∀ e ∈ docs, e.1 ≠ p) : insertDoc docs p d = docs ++ [(p, d)] := by
  unfold insertDoc
  rw [if_neg]
  intro hc
  obtain ⟨e, he, hep⟩ := List.any_eq_true.mp hc
  exact h e he (by simpa using hep)

theorem dfLookup_applyTokenizer (idx : Index) (p : List Char) (d : Document)
    (hwf : tableWF d.term_frequency) (t : List Char) :
    dfLookup (applyTokenizer idx p d) t =
      dfLookup idx t + (if d.contains t then 1 else 0) := by
  unfold dfLookup applyTokenizer
  simp only []
  rw [foldBump_df t d.term_frequency idx.term_frequency hwf]
  by_cases hex : ∃ e ∈ d.term_frequency, eq_ignore_ascii_case e.1 t = true
  · rw [if_pos hex, if_pos ((contains_iff_exists d t).mpr hex)]
    simp
  · rw [if_neg hex, if_neg]
    · simp
    · intro hc
      exact hex ((contains_iff_exists d t).mp hc)

theorem dfCount_applyTokenizer (idx : Index) (p : List Char) (d : Document)
    (hfresh : ∀ e ∈ idx.documents, e.1 ≠ p) (t : List Char) :
    dfCount (applyTokenizer idx p d) t =
      dfCount idx t + (if d.contains t then 1 else 0) := by
  unfold dfCount applyTokenizer
  simp only []
  rw [insertDoc_fresh idx.documents p d hfresh, List.filter_append]
  by_cases hc : d.contains t
  · simp [hc]
  · simp [hc]

theorem pathsOf_applyTokenizer (idx : Index) (p : List Char) (d : Document)
    (hfresh : ∀ e ∈ idx.documents, e.1 ≠ p) :
    pathsOf (applyTokenizer idx p d) = pathsOf idx ++ [p] := by
  unfold pathsOf applyTokenizer
  simp only []
  rw [insertDoc_fresh idx.documents p d hfresh]
  simp

theorem new_fold_invariant :
    ∀ (files : List (List Char × Option (List (List Char)))) (idx0 : Index),
      (∀ t, dfLookup idx0 t = dfCount idx0 t) →
      (pathsOf idx0 ++ files.map Prod.fst).Nodup →
      ∀ t, dfLookup (files.foldl newStep idx0) t = dfCount (files.foldl newStep idx0) t := by
  intro files
  induction files with
  | nil => intro idx0 h0 _ t; exact h0 t
  | cons f files ih =>
    intro idx0 h0 hnd t
    simp only [List.foldl_cons]
    cases hf : f.2 with
    | none =>
      have hstep : newStep idx0 f = idx0 := by unfold newStep; rw [hf]
      rw [hstep]
      apply ih idx0 h0 _ t
      apply List.Nodup.sublist _ hnd
      apply List.Sublist.append_left
      simp only [List.map_cons]
      exact List.sublist_cons_self _ _
    | some chunks =>
      have hfresh : ∀ e ∈ idx0.documents, e.1 ≠ f.1 := by
        intro e he hc
        rw [List.nodup_append] at hnd
        obtain ⟨_, _, hdisj⟩ := hnd
        apply hdisj (List.mem_map_of_mem Prod.fst he)
        simp only [List.map_cons, List.mem_cons]
        exact Or.inl hc
      have hstep : newStep idx0 f = applyTokenizer idx0 f.1 (Document.build chunks) := by
        unfold newStep; rw [hf]
      rw [hstep]
      apply ih (applyTokenizer idx0 f.1 (Document.build chunks))
      · intro u
        rw [dfLookup_applyTokenizer idx0 f.1 (Document.build chunks) (build_wf chunks) u,
          dfCount_applyTokenizer idx0 f.1 (Document.build chunks) hfresh u, h0 u]
      · rw [pathsOf_applyTokenizer idx0 f.1 (Document.build chunks) hfresh]
        simp only [List.map_cons] at hnd
        rw [List.append_assoc]
        simpa [List.singleton_append] using hnd

theorem dfCount_le_length (idx : Index) (t : List Char) :
    dfCount idx t ≤ idx.documents.length :=
  List.length_filter_le _ _

theorem getD_tableGet_bump_le (k t : List Char) (tf : List (List Char × Nat)) :
    (tableGet tf t).getD 0 ≤ (tableGet (bumpTerm tf k) t).getD 0 := by
  by_cases h : eq_ignore_ascii_case k t
  · rw [tableGet_bumpTerm_eq k t h tf]
    simp
  · rw [tableGet_bumpTerm_ne k t (by simpa using h) tf]

theorem foldBump_mono (t : List Char) :
    ∀ (L : List (List Char × Nat)) (tf : List (List Char × Nat)),
      (tableGet tf t).getD 0 ≤
        (tableGet (L.foldl (fun tf e => bumpTerm tf e.1) tf) t).getD 0 := by
  intro L
  induction L with
  | nil => intro tf; exact Nat.le_refl _
  | cons e L ih =>
    intro tf
    simp only [List.foldl_cons]
    exact Nat.le_trans (getD_tableGet_bump_le e.1 t tf) (ih (bumpTerm tf e.1))

/-- Claim C4: for every index produced by construction over distinct file
paths, the stored document-frequency entry of every term (0 when absent)
equals the number of documents whose table contains the term and never
exceeds the number of documents; and entries never decrease when a
further file is processed (each built document bumps each of its distinct
terms by exactly 1; nothing is removed). -/
theorem C4_document_frequency_invariant
    (files : List (List Char × Option (List (List Char))))
    (h : (files.map Prod.fst).Nodup) :
    (∀ t, dfLookup (Index.new files) t = dfCount (Index.new files) t ∧
      dfLookup (Index.new files) t ≤ (Index.new files).documents.length) ∧
    ∀ (g : List Char × Option (List (List Char))) (t : List Char),
      dfLookup (Index.new files) t ≤ dfLookup (Index.new (files ++ [g])) t := by
  have hmain : ∀ t, dfLookup (Index.new files) t = dfCount (Index.new files) t := by
    apply new_fold_invariant files ⟨[], []⟩ (fun t => rfl)
    simpa [pathsOf] using h
  constructor
  · intro t
    refine ⟨hmain t, ?_⟩
    rw [hmain t]
    exact dfCount_le_length _ t
  · intro g t
    unfold Index.new
    rw [List.foldl_append]
    cases hg : g.2 with
    | none =>
      have : newStep (List.foldl newStep ⟨[], []⟩ files) g = List.foldl newStep ⟨[], []⟩ files := by
        unfold newStep; rw [hg]
      simp only [List.foldl_cons, List.foldl_nil]
      rw [this]
    | some chunks =>
      have hstep : newStep (List.foldl newStep ⟨[], []⟩ files) g =
          applyTokenizer (List.foldl newStep ⟨[], []⟩ files) g.1 (Document.build chunks) := by
        unfold newStep; rw [hg]
      simp only [List.foldl_cons, List.foldl_nil]
      rw [hstep]
      unfold dfLookup applyTokenizer
      simp only []
      exact foldBump_mono t (Document.build chunks).term_frequency _

/-- Witness for C4 at a concrete file list and term. -/
theorem C4_document_frequency_invariant_witness :
    dfLookup (Index.new [("p1".toList, some ["a A b".toList]),
        ("p2".toList, some ["a c".toList])]) ("A".toList) =
      dfCount (Index.new [("p1".toList, some ["a A b".toList]),
        ("p2".toList, some ["a c".toList])]) ("A".toList) :=
  ((C4_document_frequency_invariant
      [("p1".toList, some ["a A b".toList]), ("p2".toList, some ["a c".toList])]
      (by decide)).1 ("A".toList)).1

/-- Claim C2 counterexample: on the all-whitespace buffer " " the lexer
yields a single one-character whitespace token (its `skip_whitespaces`
leaves a fully-whitespace buffer unchanged), while the claim's reference
scan yields the empty sequence. -/
theorem C2_counterexample :
    lexTokens (" ".toList) = [[' ']] ∧ refScan (" ".toList) = [] ∧
    ([[' ']] : List (List Char)) ≠ [] :=
  ⟨by decide, by decide, by decide⟩

/-- Claim C2 (amended): for every buffer the lexer's output equals the
reference scan with its whitespace clause amended — leading whitespace is
skipped only when a non-whitespace character remains, so a fully
whitespace remainder is consumed by rule (3) one character at a time;
lexing the empty buffer yields the empty sequence, and the maximal-munch
example lexes exactly as claimed. -/
theorem C2_lexer_reference_amended :
    (∀ s : List Char, lexTokens s = refScanAmended s) ∧
    lexTokens [] = [] ∧
    lexTokens ("foo123 bar_baz, 3.14".toList) =
      ["foo123".toList, "bar_baz".toList, ",".toList, "3.14".toList] :=
  ⟨lexTokens_eq_refScanAmended, rfl, by decide⟩

/-! ### Persisted encoding (claim C8)

Modelled from the spec: `Index::save`/`Index::load` delegate to
`serde_json` with derived `Serialize`/`Deserialize` instances whose code
lives outside this repository; §6 of the spec fixes the logical schema —
a two-field object whose `documents` field maps each path to an object
`{ term_frequency: map<string,int>, count: int }` and whose
`term_frequency` field is the index-level map.  `Json` models the emitted
value tree (objects as ordered field lists), `Index.save` the emitted
encoding, `Index.load` the deserializer on that shape; `none` is the
fatal deserialization error surfaced to the caller. -/

inductive Json where
  | num (n : Nat)
  | obj (fields : List (List Char × Json))

def encodeTable (T : List (List Char × Nat)) : List (List Char × Json) :=
  T.map fun e => (e.1, Json.num e.2)

def decodeTable : List (List Char × Json) → Option (List (List Char × Nat))
  | [] => some []
  | (k, Json.num n) :: rest => (decodeTable rest).map fun r => (k, n) :: r
  | (_, Json.obj _) :: _ => none

def encodeDocument (d : Document) : Json :=
  Json.obj [("term_frequency".toList, Json.obj (encodeTable d.term_frequency)),
    ("count".toList, Json.num d.count)]

def decodeDocument : Json → Option Document
  | Json.obj [(k1, Json.obj tf), (k2, Json.num c)] =>
    if k1 = "term_frequency".toList ∧ k2 = "count".toList then
      (decodeTable tf).map fun T => ⟨T, c⟩
    else none
  | _ => none

def decodeDocs : List (List Char × Json) → Option (List (List Char × Document))
  | [] => some []
  | (p, j) :: rest =>
    match decodeDocument j with
    | some d => (decodeDocs rest).map fun r => (p, d) :: r
    | none => none

/-- Model of `Index::save` at the logical-schema level. -/
def Index.save (idx : Index) : Json :=
  Json.obj [("documents".toList,
      Json.obj (idx.documents.map fun e => (e.1, encodeDocument e.2))),
    ("term_frequency".toList, Json.obj (encodeTable idx.term_frequency))]

/-- Model of `Index::load` at the logical-schema level. -/
def Index.load : Json → Option Index
  | Json.obj [(k1, Json.obj docs), (k2, Json.obj tf)] =>
    if k1 = "documents".toList ∧ k2 = "term_frequency".toList then
      match decodeDocs docs, decodeTable tf with
      | some ds, some T => some ⟨ds, T⟩
      | _, _ => none
    else none
  | _ => none

theorem decodeTable_encodeTable : ∀ T : List (List Char × Nat),
    decodeTable (encodeTable T) = some T := by
  intro T
  induction T with
  | nil => rfl
  | cons e rest ih =>
    simp only [encodeTable, List.map_cons, decodeTable]
    rw [show encodeTable rest = rest.map fun e => (e.1, Json.num e.2) from rfl] at ih
    rw [ih, Option.map_some']

theorem decodeDocument_encodeDocument (d : Document) :
    decodeDocument (encodeDocument d) = some d := by
  show (if "term_frequency".toList = "term_frequency".toList ∧
        "count".toList = "count".toList then
      (decodeTable (encodeTable d.term_frequency)).map
        fun T => ({ term_frequency := T, count := d.count } : Document)
    else none) = some d
  rw [if_pos ⟨rfl, rfl⟩, decodeTable_encodeTable, Option.map_some']

theorem decodeDocs_encodeDocs : ∀ docs : List (List Char × Document),
    decodeDocs (docs.map fun e => (e.1, encodeDocument e.2)) = some docs := by
  intro docs
  induction docs with
  | nil => rfl
  | cons e rest ih =>
    simp only [List.map_cons, decodeDocs, decodeDocument_encodeDocument e.2]
    rw [ih, Option.map_some']

/-- Claim C8: loading a saved index succeeds and reproduces it exactly —
same document paths, same per-document tables and counts, same
index-level document-frequency table. -/
theorem C8_save_load_roundtrip (idx : Index) :
    Index.load (Index.save idx) = some idx := by
  show (if "documents".toList = "documents".toList ∧
        "term_frequency".toList = "term_frequency".toList then
      match decodeDocs (idx.documents.map fun e => (e.1, encodeDocument e.2)),
          decodeTable (encodeTable idx.term_frequency) with
      | some ds, some T => some ({ documents := ds, term_frequency := T } : Index)
      | _, _ => none
    else none) = some idx
  rw [if_pos ⟨rfl, rfl⟩, decodeDocs_encodeDocs, decodeTable_encodeTable]

/-! ### Panic safety of search (claim C10)

Every potential panic on the search path is made explicit as `none`:
the `expect` inside `Lexer::chomp_while`, the `assert!(n >= d)` inside
`Index::idf`, and every `f64` division with zero divisor (the only way a
score can become non-real, which would make `partial_cmp(..).unwrap()` in
the sort comparator panic: NaN score values pass the `!= 0.0` filter and
`partial_cmp` returns `None` on them). -/

def lexGoChecked : Nat → List Char → Option (List (List Char))
  | 0, _ => some []
  | fuel + 1, s =>
    match get_next_token s with
    | none => none
    | some none => some []
    | some (some (t, rest)) => (lexGoChecked fuel rest).map fun r => t :: r

def lexTokensChecked (s : List Char) : Option (List (List Char)) :=
  lexGoChecked s.length s

theorem lexGoChecked_eq : ∀ (fuel : Nat) (s : List Char),
    lexGoChecked fuel s = some (lexGo fuel s) := by
  intro fuel
  induction fuel with
  | zero => intro s; rfl
  | succ n ih =>
    intro s
    cases h : get_next_token s with
    | none => exact absurd h (get_next_token_ne_none s)
    | some o =>
      cases o with
      | none => simp [lexGoChecked, lexGo, h]
      | some pr => simp [lexGoChecked, lexGo, h, ih]

/-- The lexer never reaches the `expect` panic in `chomp_while`. -/
theorem lexTokensChecked_eq (s : List Char) :
    lexTokensChecked s = some (lexTokens s) :=
  lexGoChecked_eq s.length s

/-- Sequence a list of options, `none` if any element is `none`. -/
def optList {α : Type} : List (Option α) → Option (List α)
  | [] => some []
  | none :: _ => none
  | some a :: rest => (optList rest).map fun r => a :: r

/-- Model of `Document::term_frequency` with the division guarded: `none` marks a
present term whose document has total count 0 (`0/0` or `c/0` in `f64`). -/
def Document.termFrequencyChecked (d : Document) (t : List Char) : Option ℚ :=
  match tableGet d.term_frequency t with
  | some c => if d.count = 0 then none else some ((c : ℚ) / (d.count : ℚ))
  | none => some 0

/-- Model of `Index::search` with every panic source guarded. -/
noncomputable def Index.searchChecked (idx : Index) (q : List Char) :
    Option (List (List Char × ℝ)) :=
  match lexTokensChecked q with
  | none => none
  | some toks =>
    if toks.all fun t => decide (dfCount idx t ≤ idx.documents.length) then
      let terms := toks.map fun t => (t, idx.idf t)
      match optList (idx.documents.map fun pd =>
          (optList (terms.map fun ti =>
              (pd.2.termFrequencyChecked ti.1).map
                fun tf => ((tf : ℚ) : ℝ) * ti.2)).map
            fun l => (pd.1, l.sum)) with
      | none => none
      | some results =>
        some (((results.filter fun r => decide (r.2 ≠ 0)).insertionSort
          fun a b => a.2 ≤ b.2).reverse)
    else none

theorem optList_map_some {α β : Type} (f : α → Option β) (g : α → β) :
    ∀ l : List α, (∀ x ∈ l, f x = some (g x)) →
      optList (l.map f) = some (l.map g) := by
  intro l
  induction l with
  | nil => intro _; rfl
  | cons a l ih =>
    intro h
    simp only [List.map_cons, optList, h a (List.mem_cons_self a l)]
    rw [ih fun x hx => h x (List.mem_cons_of_mem a hx), Option.map_some']

theorem termFrequencyChecked_eq (d : Document)
    (hinv : d.count = (d.term_frequency.map Prod.snd).sum ∧
      ∀ x ∈ d.term_frequency, 1 ≤ x.2) (t : List Char) :
    d.termFrequencyChecked t = some (d.termFrequency t) := by
  obtain ⟨hsum, hpos⟩ := hinv
  unfold Document.termFrequencyChecked
  cases hg : tableGet d.term_frequency t with
  | none => rw [termFrequency_none d t hg]
  | some c =>
    have hcpos : 0 < d.count := by
      unfold tableGet at hg
      cases hf : d.term_frequency.find? fun e => eq_ignore_ascii_case e.1 t with
      | none => rw [hf] at hg; cases hg
      | some e =>
        have he := List.mem_of_find?_eq_some hf
        have h1 : 1 ≤ e.2 := hpos e he
        have h2 : e.2 ≤ (d.term_frequency.map Prod.snd).sum :=
          List.single_le_sum (fun x _ => Nat.zero_le x) e.2
            (List.mem_map_of_mem Prod.snd he)
        omega
    show (if d.count = 0 then none else some ((c : ℚ) / (d.count : ℚ))) =
      some (d.termFrequency t)
    rw [if_neg (by omega), termFrequency_some d t c hg]

/-- Claim C10 (amended): under the full document invariant — count equals
the sum of the stored occurrence counts AND every stored count is at
least 1 (so a document with a non-empty term table has a positive count)
— `Index::search` never panics: the checked search succeeds and returns
exactly the unchecked result; in particular the lexer's `expect`, the idf
assertion and the sort comparator's `unwrap` are all unreachable. -/
theorem C10_search_no_panic_amended (idx : Index) (q : List Char)
    (h : ∀ pd ∈ idx.documents,
      pd.2.count = (pd.2.term_frequency.map Prod.snd).sum ∧
        ∀ x ∈ pd.2.term_frequency, 1 ≤ x.2) :
    idx.searchChecked q = some (idx.search q) := by
  unfold Index.searchChecked
  rw [lexTokensChecked_eq q]
  simp only []
  rw [if_pos]
  · have houter : optList ((idx.documents).map fun pd =>
        (optList (((lexTokens q).map fun t => (t, idx.idf t)).map fun ti =>
            (pd.2.termFrequencyChecked ti.1).map
              fun tf => ((tf : ℚ) : ℝ) * ti.2)).map
          fun l => (pd.1, l.sum)) =
        some ((idx.documents).map fun pd =>
          (pd.1, (((lexTokens q).map fun t => (t, idx.idf t)).map fun ti =>
            ((pd.2.termFrequency ti.1 : ℚ) : ℝ) * ti.2).sum)) := by
      apply optList_map_some
      intro pd hpd
      have hinner : optList (((lexTokens q).map fun t => (t, idx.idf t)).map fun ti =>
          (pd.2.termFrequencyChecked ti.1).map fun tf => ((tf : ℚ) : ℝ) * ti.2) =
          some (((lexTokens q).map fun t => (t, idx.idf t)).map fun ti =>
            ((pd.2.termFrequency ti.1 : ℚ) : ℝ) * ti.2) := by
        apply optList_map_some
        intro ti _
        rw [termFrequencyChecked_eq pd.2 (h pd hpd) ti.1, Option.map_some']
      rw [hinner, Option.map_some']
    rw [houter]
    rfl
  · rw [List.all_eq_true]
    intro t _
    exact decide_eq_true (dfCount_le_length idx t)

/-- Claim C10 counterexample: two documents whose tables store occurrence
count 0 for "a" with total count 0 satisfy the claim's precondition
`count == sum(term_frequency.values())`, yet searching "a" divides by a
zero total count for a present term: in `f64` both scores are NaN, both
pass the `!= 0.0` filter, and the sort comparator's
`partial_cmp(..).unwrap()` panics; the checked search reports the guarded
division. -/
theorem C10_counterexample :
    (∀ pd ∈ ([("p1".toList, (⟨[("a".toList, 0)], 0⟩ : Document)),
        ("p2".toList, (⟨[("a".toList, 0)], 0⟩ : Document))] :
          List (List Char × Document)),
      pd.2.count = (pd.2.term_frequency.map Prod.snd).sum) ∧
    Index.searchChecked
      ⟨[("p1".toList, ⟨[("a".toList, 0)], 0⟩),
        ("p2".toList, ⟨[("a".toList, 0)], 0⟩)], []⟩ ("a".toList) = none := by
  constructor
  · decide
  · rfl

/-- Witness for C10 (amended) at a concrete invariant-satisfying index. -/
theorem C10_search_no_panic_amended_witness :
    Index.searchChecked ⟨[("p1".toList, ⟨[("a".toList, 2)], 2⟩)], []⟩ ("a".toList) =
      some (Index.search ⟨[("p1".toList, ⟨[("a".toList, 2)], 2⟩)], []⟩ ("a".toList)) :=
  C10_search_no_panic_amended _ _ (by decide)

/-- Claim C5 counterexample: a (deserializable) document whose table
contains "a" with occurrence count 5 but whose total count is 0 refutes
the clause "term_frequency returns 0.0 when the total token count is 0":
the term is present, so the source divides `5 as f64 / 0.0`, which is
`+inf`, not `0.0` — the guarded model marks the division (`none`). -/
theorem C5_counterexample :
    (⟨[("a".toList, 5)], 0⟩ : Document).count = 0 ∧
    (⟨[("a".toList, 5)], 0⟩ : Document).contains ("a".toList) = true ∧
    Document.termFrequencyChecked ⟨[("a".toList, 5)], 0⟩ ("a".toList) = none :=
  ⟨rfl, by decide, by decide⟩

/-- Claim C5 (amended): `term_frequency` returns the occurrence count
divided by the total token count whenever the total is nonzero, and
returns `0.0` whenever the term is absent; for a present term with total
count 0 the `f64` division by zero yields a non-real value rather than
`0.0` — a case that cannot arise for documents produced by tokenization,
whose count is 0 only when their term table is empty; `contains` is
membership under the case-insensitive key identity; and the document
built from tokens [a, a, b] has `term_frequency` 2/3, 1/3, 0 for "a",
"b", "c" and does not contain "c". -/
theorem C5_term_frequency_contract_amended :
    (∀ (d : Document) (t : List Char), 0 < d.count →
      d.termFrequency t = (occurrences d t : ℚ) / (d.count : ℚ) ∧
      d.termFrequencyChecked t = some (d.termFrequency t)) ∧
    (∀ (d : Document) (t : List Char), d.contains t = false →
      d.termFrequency t = 0 ∧ d.termFrequencyChecked t = some 0) ∧
    (∀ (d : Document) (t : List Char), d.contains t = true → d.count = 0 →
      d.termFrequencyChecked t = none) ∧
    (∀ (chunks : List (List Char)) (t : List Char),
      (Document.build chunks).count = 0 →
        (Document.build chunks).contains t = false) ∧
    (∀ (d : Document) (t : List Char),
      d.contains t = true ↔ ∃ e ∈ d.term_frequency, eq_ignore_ascii_case e.1 t = true) ∧
    ((Document.build ["a a b".toList]).termFrequency ("a".toList) = 2 / 3 ∧
     (Document.build ["a a b".toList]).termFrequency ("b".toList) = 1 / 3 ∧
     (Document.build ["a a b".toList]).termFrequency ("c".toList) = 0 ∧
     (Document.build ["a a b".toList]).contains ("c".toList) = false) := by
  refine ⟨?_, ?_, ?_, ?_, contains_iff_exists, ?_, ?_, ?_, ?_⟩
  · intro d t hc
    constructor
    · unfold occurrences
      cases h : tableGet d.term_frequency t with
      | none => rw [termFrequency_none d t h]; simp
      | some c => rw [termFrequency_some d t c h]; simp
    · unfold Document.termFrequencyChecked
      cases h : tableGet d.term_frequency t with
      | none =>
        show some 0 = some (d.termFrequency t)
        rw [termFrequency_none d t h]
      | some c =>
        show (if d.count = 0 then none else some ((c : ℚ) / (d.count : ℚ))) =
          some (d.termFrequency t)
        rw [if_neg (by omega), termFrequency_some d t c h]
  · intro d t h
    have hg : tableGet d.term_frequency t = none := by
      cases hg : tableGet d.term_frequency t with
      | none => rfl
      | some c =>
        unfold Document.contains at h
        rw [hg] at h
        simp at h
    refine ⟨termFrequency_none d t hg, ?_⟩
    unfold Document.termFrequencyChecked
    rw [hg]
  · intro d t hpres hc
    unfold Document.contains at hpres
    cases hg : tableGet d.term_frequency t with
    | none => rw [hg] at hpres; simp at hpres
    | some c =>
      unfold Document.termFrequencyChecked
      rw [hg]
      show (if d.count = 0 then none else some ((c : ℚ) / (d.count : ℚ))) = none
      rw [if_pos hc]
  · intro chunks t hc
    obtain ⟨hsum, hpos⟩ := build_fold_invariant chunks ⟨[], 0⟩ ⟨rfl, by simp⟩
    have hnil : (Document.build chunks).term_frequency = [] := by
      cases ht : (Document.build chunks).term_frequency with
      | nil => rfl
      | cons e rest =>
        exfalso
        have hsum2 : (Document.build chunks).count =
            ((Document.build chunks).term_frequency.map Prod.snd).sum := hsum
        rw [ht] at hsum2
        simp only [List.map_cons, List.sum_cons] at hsum2
        have h1 : 1 ≤ e.2 := hpos e (ht ▸ List.mem_cons_self e rest)
        omega
    unfold Document.contains tableGet
    rw [hnil]
    rfl
  · rw [termFrequency_some _ _ 2 (by decide),
      show (Document.build ["a a b".toList]).count = 3 from by decide]
    norm_num
  · rw [termFrequency_some _ _ 1 (by decide),
      show (Document.build ["a a b".toList]).count = 3 from by decide]
    norm_num
  · exact termFrequency_none _ _ (by decide)
  · decide

/-- Witness for C5 (amended) at concrete documents and terms. -/
theorem C5_term_frequency_contract_amended_witness :
    Document.termFrequencyChecked ⟨[("a".toList, 5)], 0⟩ ("a".toList) = none ∧
    (Document.build ["a a b".toList]).termFrequency ("c".toList) = 0 :=
  ⟨C5_term_frequency_contract_amended.2.2.1 ⟨[("a".toList, 5)], 0⟩ ("a".toList)
      (by decide) rfl,
    (C5_term_frequency_contract_amended.2.1 _ ("c".toList) (by decide)).1⟩

end Indexer
